import Mathlib

/-!
Verification of the signer module of a Bitcoin wallet library:
signer identities, the ordered signer registry, the two sighash
strategies (legacy and segwit-v0), and the two built-in signers
(single private key, BIP32 extended private key).

The embedding follows `src/wallet/signer.rs`.  External library
primitives (secp256k1 operations, BIP32 derivation, the actual
double-SHA256 transaction digests) are modelled symbolically: the
digest is represented by a constructor application recording exactly
the data the library hashes, and key derivation by injective
constructor-like functions, since those live outside the module under
verification.
-/

namespace Signer

/-- A Bitcoin script, as its list of bytes (each < 256 in real data;
the byte width does not matter for any property proved here). -/
abbrev Script := List Nat

/-- Models `bitcoin::Script::is_v0_p2wpkh` (rust-bitcoin 0.25):
length 22, first byte `OP_0` (0x00), second byte `OP_PUSHBYTES_20` (0x14). -/
def Script.is_v0_p2wpkh (s : Script) : Bool :=
  s.length == 22 && s.getD 0 0 == 0x00 && s.getD 1 0 == 0x14

/-- Models `bitcoin::blockdata::script::Builder::push_slice` for data
shorter than `0x4c` bytes (the only case reached by this module, which
always pushes a 20-byte hash): a single length byte followed by the data. -/
def pushSlice (data : List Nat) : List Nat :=
  data.length :: data

/-- Models `p2wpkh_script_code` from the source: builds
`OP_DUP OP_HASH160 <script[2..]> OP_EQUALVERIFY OP_CHECKSIG`
(opcodes 0x76, 0xa9, push, 0x88, 0xac). -/
def p2wpkh_script_code (script : Script) : Script :=
  [0x76, 0xa9] ++ pushSlice (script.drop 2) ++ [0x88, 0xac]

/-- A transaction outpoint (`bitcoin::OutPoint`); only the output index
`vout` is consulted by this module. -/
structure OutPoint where
  txid : Nat
  vout : Nat
deriving DecidableEq, Repr, Inhabited

/-- A transaction input (`bitcoin::TxIn`); only `previous_output` is
consulted by this module. -/
structure TxIn where
  previous_output : OutPoint
deriving DecidableEq, Repr, Inhabited

/-- A transaction output (`bitcoin::TxOut`). -/
structure TxOut where
  value : Nat
  script_pubkey : Script
deriving DecidableEq, Repr, Inhabited

/-- A transaction (`bitcoin::Transaction`); the fields not listed
(version, lock time) are never read by this module directly, only by
the symbolically-modelled digest functions, which here receive the
whole transaction. -/
structure Transaction where
  input : List TxIn
  output : List TxOut
deriving DecidableEq, Repr, Inhabited

/-- `bitcoin::SigHashType` (rust-bitcoin 0.25). -/
inductive SigHashType where
  | all | none_ | single | allPlusAnyoneCanPay | nonePlusAnyoneCanPay | singlePlusAnyoneCanPay
deriving DecidableEq, Repr, Inhabited

/-- Models `SigHashType::as_u32`. -/
def SigHashType.as_u32 : SigHashType → Nat
  | .all => 0x01
  | .none_ => 0x02
  | .single => 0x03
  | .allPlusAnyoneCanPay => 0x81
  | .nonePlusAnyoneCanPay => 0x82
  | .singlePlusAnyoneCanPay => 0x83

/-- An ECDSA public key, modelled abstractly by the secret scalar it
was derived from (secp256k1 public-key derivation is injective on
valid secrets, so this is an order-faithful model of the external
`secp` operation). -/
structure PublicKey where
  point : Nat
deriving DecidableEq, Repr, Inhabited

/-- `bitcoin::PrivateKey`, modelled by its secret scalar. -/
structure PrivateKey where
  key : Nat
deriving DecidableEq, Repr, Inhabited

/-- Models `PrivateKey::public_key(secp)` (external secp256k1 call). -/
def PrivateKey.public_key (sk : PrivateKey) : PublicKey :=
  ⟨sk.key⟩

/-- The transaction digest handed to the ECDSA signer, modelled
symbolically as the record of everything the external hash functions
(`Transaction::signature_hash` for legacy,
`bip143::SigHashCache::signature_hash` for segwit-v0) are fed. -/
inductive SigHash where
  | legacy (tx : Transaction) (input_index : Nat) (script_code : Script) (sighash_u32 : Nat)
  | segwitv0 (tx : Transaction) (input_index : Nat) (script_code : Script) (value : Nat)
      (ty : SigHashType)
deriving DecidableEq, Repr, Inhabited

/-- A deterministic ECDSA signature (external `secp.sign`), modelled by
the digest and the signing secret. -/
structure EcdsaSig where
  msg : SigHash
  key : Nat
deriving DecidableEq, Repr, Inhabited

/-- The byte vector stored in `partial_sigs`: the DER serialization of
an ECDSA signature followed by one sighash-type byte (modelled
symbolically, keeping both components). -/
structure FinalSig where
  der_of : EcdsaSig
  sighash_byte : Nat
deriving DecidableEq, Repr, Inhabited

/-- `SignerError` from the source, verbatim. -/
inductive SignerError where
  | MissingKey
  | InvalidKey
  | UserCanceled
  | InputIndexOutOfRange
  | MissingNonWitnessUtxo
  | InvalidNonWitnessUtxo
  | MissingWitnessUtxo
  | MissingWitnessScript
  | MissingHDKeypath
deriving DecidableEq, Repr, Inhabited

/-- One PSBT input (`bitcoin::util::psbt::Input`), with the fields this
module reads or writes.  The two maps (`partial_sigs`, `hd_keypaths`)
are `BTreeMap`s in the source; they are modelled as association lists
with unique keys, enumerated in map order. -/
structure Input where
  non_witness_utxo : Option Transaction := none
  witness_utxo : Option TxOut := none
  partial_sigs : List (PublicKey × FinalSig) := []
  sighash_type : Option SigHashType := none
  redeem_script : Option Script := none
  witness_script : Option Script := none
  hd_keypaths : List (PublicKey × (Nat × List Nat)) := []
deriving DecidableEq, Repr, Inhabited

/-- `bitcoin::util::psbt::PartiallySignedTransaction`: the global
unsigned transaction plus the per-input records. -/
structure Psbt where
  unsigned_tx : Transaction
  inputs : List Input
deriving DecidableEq, Repr, Inhabited

/-- Result of a sighash strategy: the `Result<(SigHash, SigHashType),
SignerError>` of the source, with a third outcome for a Rust panic
(out-of-bounds indexing). -/
inductive HashResult where
  | ok (digest : SigHash) (ty : SigHashType)
  | err (e : SignerError)
  | panic
deriving DecidableEq, Repr, Inhabited

/-- Models `<Legacy as ComputeSighash>::sighash`.  The source indexes
`psbt.global.unsigned_tx.input[input_index]` unconditionally after the
range check on `psbt.inputs`; if the unsigned transaction has fewer
inputs than the PSBT records, that indexing panics. -/
def Legacy.sighash (psbt : Psbt) (input_index : Nat) : HashResult :=
  if input_index ≥ psbt.inputs.length then .err .InputIndexOutOfRange
  else
    match psbt.unsigned_tx.input.get? input_index with
    | none => .panic
    | some tx_input =>
      let psbt_input := psbt.inputs.getD input_index default
      let sighash := psbt_input.sighash_type.getD .all
      let script : Except SignerError Script :=
        match psbt_input.redeem_script with
        | some redeem_script => .ok redeem_script
        | none =>
          match psbt_input.non_witness_utxo with
          | none => .error .MissingNonWitnessUtxo
          | some non_witness_utxo =>
            match non_witness_utxo.output.get? tx_input.previous_output.vout with
            | none => .error .InvalidNonWitnessUtxo
            | some prev_out => .ok prev_out.script_pubkey
      match script with
      | .error e => .err e
      | .ok script =>
        .ok (.legacy psbt.unsigned_tx input_index script sighash.as_u32) sighash

/-- Models `<Segwitv0 as ComputeSighash>::sighash`.  Note: when
`witness_utxo` is absent the source returns
`SignerError::MissingNonWitnessUtxo` (signer.rs line 488), not the
`MissingWitnessUtxo` variant documented for that condition. -/
def Segwitv0.sighash (psbt : Psbt) (input_index : Nat) : HashResult :=
  if input_index ≥ psbt.inputs.length then .err .InputIndexOutOfRange
  else
    let psbt_input := psbt.inputs.getD input_index default
    let sighash := psbt_input.sighash_type.getD .all
    match psbt_input.witness_utxo with
    | none => .err .MissingNonWitnessUtxo
    | some witness_utxo =>
      let value := witness_utxo.value
      let script : Except SignerError Script :=
        match psbt_input.witness_script with
        | some witness_script => .ok witness_script
        | none =>
          if witness_utxo.script_pubkey.is_v0_p2wpkh then
            .ok (p2wpkh_script_code witness_utxo.script_pubkey)
          else if (psbt_input.redeem_script.map Script.is_v0_p2wpkh).getD false then
            .ok (p2wpkh_script_code (psbt_input.redeem_script.getD default))
          else
            .error .MissingWitnessScript
      match script with
      | .error e => .err e
      | .ok script =>
        .ok (.segwitv0 psbt.unsigned_tx input_index script value sighash) sighash

/-- `BTreeMap::contains_key` on the `partial_sigs` map. -/
def containsKey (pk : PublicKey) (l : List (PublicKey × FinalSig)) : Bool :=
  l.any (fun kv => kv.1 == pk)

/-- `BTreeMap::insert` on the `partial_sigs` map: replaces the value at
an existing key, otherwise adds the binding.  (The source keeps the
map sorted by key; the enumeration position of the new binding is
irrelevant to every property proved here, so the model appends.) -/
def insertSig (pk : PublicKey) (v : FinalSig) : List (PublicKey × FinalSig) → List (PublicKey × FinalSig)
  | [] => [(pk, v)]
  | (k, x) :: rest =>
    if k == pk then (pk, v) :: rest else (k, x) :: insertSig pk v rest

/-- Result of a `Signer::sign` call: `Ok` and `Err` carry the final
state of the `&mut` PSBT; `panic` is a Rust panic (an `unwrap` of
`None`). -/
inductive SignResult where
  | ok (psbt : Psbt)
  | err (e : SignerError) (psbt : Psbt)
  | panic
deriving DecidableEq, Repr, Inhabited

/-- Models `<PrivateKey as Signer>::sign`.  The source starts with
`input_index.unwrap()`: an absent index panics. -/
def PrivateKey.sign (self : PrivateKey) (psbt : Psbt) (input_index : Option Nat) : SignResult :=
  match input_index with
  | none => .panic
  | some input_index =>
    if input_index ≥ psbt.inputs.length then .err .InputIndexOutOfRange psbt
    else
      let pubkey := self.public_key
      let inp := psbt.inputs.getD input_index default
      if containsKey pubkey inp.partial_sigs then .ok psbt
      else
        let hs : HashResult :=
          match inp.witness_utxo with
          | some _ => Segwitv0.sighash psbt input_index
          | none => Legacy.sighash psbt input_index
        match hs with
        | .panic => .panic
        | .err e => .err e psbt
        | .ok hash sighash =>
          let signature : EcdsaSig := ⟨hash, self.key⟩
          let final_signature : FinalSig := ⟨signature, sighash.as_u32 % 256⟩
          .ok { psbt with
                inputs := psbt.inputs.set input_index
                  { inp with partial_sigs := insertSig pubkey final_signature inp.partial_sigs } }

/-- `bip32::ExtendedPrivKey`, reduced to the private key it contributes
after derivation. -/
structure ExtendedPrivKey where
  private_key : PrivateKey
deriving DecidableEq, Repr, Inhabited

/-- `miniscript::descriptor::DescriptorXKey<ExtendedPrivKey>`.  The two
external-crate operations the source calls on it are modelled as
function-valued fields: `derive_priv p` models
`self.xkey.derive_priv(secp, p).unwrap()` and `matchesRoot (f, p)`
models `self.matches(&(f, p), secp).is_some()` (`matches` is a Lean
keyword, hence the renaming). -/
structure DescriptorXKey where
  derive_priv : List Nat → ExtendedPrivKey
  matchesRoot : Nat × List Nat → Bool

/-- Models `<DescriptorXKey<ExtendedPrivKey> as Signer>::sign`: unwrap
the index (panic if absent), range-check it, take the first
`hd_keypaths` record whose (fingerprint, path) matches this key's
derivation root (success without modification if none), derive along
the recorded path, fail `InvalidKey` on a public-key mismatch, else
delegate to the single-key signer. -/
def DescriptorXKey.sign (self : DescriptorXKey) (psbt : Psbt) (input_index : Option Nat) :
    SignResult :=
  match input_index with
  | none => .panic
  | some input_index =>
    if input_index ≥ psbt.inputs.length then .err .InputIndexOutOfRange psbt
    else
      let inp := psbt.inputs.getD input_index default
      match inp.hd_keypaths.find? (fun kv => self.matchesRoot (kv.2.1, kv.2.2)) with
      | none => .ok psbt
      | some (public_key, (_, deriv_path)) =>
        let derived_key := self.derive_priv deriv_path
        if derived_key.private_key.public_key = public_key then
          derived_key.private_key.sign psbt (some input_index)
        else
          .err .InvalidKey psbt

/-- `SignerId` from the source.  The 20-byte `hash160::Hash` and the
4-byte `Fingerprint` both order lexicographically on their bytes,
which for fixed-width arrays coincides with the numeric order of the
big-endian value; they are therefore modelled as `Nat`.  The derived
Rust `Ord` puts every `PkHash` before every `Fingerprint`. -/
inductive SignerId where
  | PkHash (hash : Nat)
  | Fingerprint (fp : Nat)
deriving DecidableEq, Repr, Inhabited

/-- The derived `Ord` of `SignerId`. -/
def SignerId.cmp : SignerId → SignerId → Ordering
  | .PkHash a, .PkHash b => compare a b
  | .PkHash _, .Fingerprint _ => .lt
  | .Fingerprint _, .PkHash _ => .gt
  | .Fingerprint a, .Fingerprint b => compare a b

/-- `SignersContainerKey`: a signer identity plus its `SignerOrdering`
priority (a Rust `usize`, modelled as `Nat`; every value a Rust
program can build is at most `usizeMax`). -/
structure SignersContainerKey where
  id : SignerId
  ordering : Nat
deriving DecidableEq, Repr, Inhabited

/-- `usize::MAX` on a 64-bit target. -/
def usizeMax : Nat := 2 ^ 64 - 1

/-- The `Ord` implementation of `SignersContainerKey`: by ordering
first, identity second. -/
def SignersContainerKey.cmp (a b : SignersContainerKey) : Ordering :=
  (compare a.ordering b.ordering).then (a.id.cmp b.id)

/-- An opaque registered signer instance (`Arc<dyn Signer>`), compared
only by identity of the handle. -/
abbrev SignerInstance := Nat

/-- `SignersContainer`: a `BTreeMap<SignersContainerKey, Arc<dyn
Signer>>`, modelled as its entry list in ascending key order. -/
abbrev SignersContainer := List (SignersContainerKey × SignerInstance)

/-- `BTreeMap::insert` on the container: returns the new map and the
value previously stored under an equal key, if any. -/
def btInsert (k : SignersContainerKey) (v : SignerInstance) :
    SignersContainer → SignersContainer × Option SignerInstance
  | [] => ([(k, v)], none)
  | (k', v') :: rest =>
    match k.cmp k' with
    | .lt => ((k, v) :: (k', v') :: rest, none)
    | .eq => ((k, v) :: rest, some v')
    | .gt =>
      let r := btInsert k v rest
      ((k', v') :: r.1, r.2)

/-- `BTreeMap::remove` on the container. -/
def btRemove (k : SignersContainerKey) :
    SignersContainer → SignersContainer × Option SignerInstance
  | [] => ([], none)
  | (k', v') :: rest =>
    match k.cmp k' with
    | .lt => ((k', v') :: rest, none)
    | .eq => (rest, some v')
    | .gt =>
      let r := btRemove k rest
      ((k', v') :: r.1, r.2)

/-- Map lookup on the container (the notion of "the occupant of a
key"); `BTreeMap::get` semantics. -/
def btLookup (k : SignersContainerKey) : SignersContainer → Option SignerInstance
  | [] => none
  | (k', v') :: rest => if k.cmp k' = .eq then some v' else btLookup k rest

namespace SignersContainer

/-- `SignersContainer::add_external`. -/
def add_external (m : SignersContainer) (id : SignerId) (ordering : Nat)
    (signer : SignerInstance) : SignersContainer × Option SignerInstance :=
  btInsert ⟨id, ordering⟩ signer m

/-- `SignersContainer::remove`. -/
def remove (m : SignersContainer) (id : SignerId) (ordering : Nat) :
    SignersContainer × Option SignerInstance :=
  btRemove ⟨id, ordering⟩ m

/-- `SignersContainer::signers`: the values in ascending key order. -/
def signers (m : SignersContainer) : List SignerInstance :=
  m.map Prod.snd

/-- `SignersContainer::find`: a `BTreeMap::range` scan from
`(id, SignerOrdering(0))` to `(id, SignerOrdering(usize::MAX))`, both
bounds included, filtered on the identity, taking the first hit.  On
the sorted entry list the range is exactly the entries between the two
bounds. -/
def find (m : SignersContainer) (id : SignerId) : Option SignerInstance :=
  let lo : SignersContainerKey := ⟨id, 0⟩
  let hi : SignersContainerKey := ⟨id, usizeMax⟩
  (((m.filter (fun kv =>
        decide (lo.cmp kv.1 ≠ .gt) && decide (kv.1.cmp hi ≠ .gt))).filter
      (fun kv => decide (kv.1.id = id))).head?).map Prod.snd

end SignersContainer

/-- The container states reachable from `SignersContainer::new` by
`add_external` / `remove` calls.  A Rust `SignerOrdering` always fits
in `usize`, hence the bound on added orderings. -/
inductive Reachable : SignersContainer → Prop
  | new : Reachable []
  | add (id : SignerId) (ordering : Nat) (signer : SignerInstance)
      {m : SignersContainer} (h : Reachable m) (hord : ordering ≤ usizeMax) :
      Reachable (m.add_external id ordering signer).1
  | remove (id : SignerId) (ordering : Nat) {m : SignersContainer} (h : Reachable m) :
      Reachable (m.remove id ordering).1

/-- Strict ascending order of the container's entry list: the
`BTreeMap` representation invariant. -/
def SortedMap (m : SignersContainer) : Prop :=
  List.Pairwise (fun a b => SignersContainerKey.cmp a.1 b.1 = .lt) m

/-- All orderings stored in the container fit in a Rust `usize`. -/
def BoundedOrd (m : SignersContainer) : Prop :=
  ∀ kv ∈ m, kv.1.ordering ≤ usizeMax

/-! ### Helper lemmas -/

theorem is_v0_p2wpkh_length {s : Script} (h : s.is_v0_p2wpkh = true) : s.length = 22 := by
  simp only [Script.is_v0_p2wpkh, Bool.and_eq_true, beq_iff_eq] at h
  exact h.1.1

theorem p2wpkh_script_code_of_p2wpkh {s : Script} (h : s.is_v0_p2wpkh = true) :
    p2wpkh_script_code s = [0x76, 0xa9, 0x14] ++ s.drop 2 ++ [0x88, 0xac] := by
  have hlen : (s.drop 2).length = 20 := by
    simp [List.length_drop, is_v0_p2wpkh_length h]
  simp [p2wpkh_script_code, pushSlice, hlen]

theorem get?_eq_some_getD {α : Type} [Inhabited α] {l : List α} {i : Nat}
    (h : i < l.length) : l.get? i = some (l.getD i default) := by
  rw [List.getD_eq_getElem?_getD]
  cases hx : l[i]? with
  | none => rw [List.getElem?_eq_none_iff] at hx; omega
  | some x => simp [List.get?_eq_getElem?, hx]

/-! ### C1 -/

/-- **C1.** For every PSBT and in-range input index whose input carries
a `witness_utxo`, `Segwitv0::sighash` resolves the script-code in this
order: an explicit witness script if present; else the canonical
P2WPKH script-code `OP_DUP OP_HASH160 <20-byte-hash> OP_EQUALVERIFY
OP_CHECKSIG` synthesized from the witness output's script-pubkey when
that is canonical P2WPKH; else the same synthesized from the redeem
script when that is canonical P2WPKH; otherwise it fails
`MissingWitnessScript`. -/
theorem segwitv0_script_code_resolution
    (psbt : Psbt) (i : Nat) (u : TxOut)
    (hlen : i < psbt.inputs.length)
    (hu : (psbt.inputs.getD i default).witness_utxo = some u) :
    let inp := psbt.inputs.getD i default
    let st := inp.sighash_type.getD SigHashType.all
    (∀ ws, inp.witness_script = some ws →
      Segwitv0.sighash psbt i = .ok (.segwitv0 psbt.unsigned_tx i ws u.value st) st)
    ∧ (inp.witness_script = none → u.script_pubkey.is_v0_p2wpkh = true →
      (u.script_pubkey.drop 2).length = 20 ∧
      Segwitv0.sighash psbt i =
        .ok (.segwitv0 psbt.unsigned_tx i
          ([0x76, 0xa9, 0x14] ++ u.script_pubkey.drop 2 ++ [0x88, 0xac]) u.value st) st)
    ∧ (∀ rs, inp.witness_script = none → u.script_pubkey.is_v0_p2wpkh = false →
      inp.redeem_script = some rs → rs.is_v0_p2wpkh = true →
      (rs.drop 2).length = 20 ∧
      Segwitv0.sighash psbt i =
        .ok (.segwitv0 psbt.unsigned_tx i
          ([0x76, 0xa9, 0x14] ++ rs.drop 2 ++ [0x88, 0xac]) u.value st) st)
    ∧ (inp.witness_script = none → u.script_pubkey.is_v0_p2wpkh = false →
      (inp.redeem_script.map Script.is_v0_p2wpkh).getD false = false →
      Segwitv0.sighash psbt i = .err .MissingWitnessScript) := by
  intro inp st
  have hif : ¬ i ≥ psbt.inputs.length := by omega
  refine ⟨?_, ?_, ?_, ?_⟩
  · intro ws hws
    simp only [Segwitv0.sighash, if_neg hif]
    rw [show psbt.inputs.getD i default = inp from rfl, hu, hws]
  · intro hws hp2
    refine ⟨by simp [List.length_drop, is_v0_p2wpkh_length hp2], ?_⟩
    simp only [Segwitv0.sighash, if_neg hif]
    rw [show psbt.inputs.getD i default = inp from rfl, hu, hws]
    simp [hp2, p2wpkh_script_code_of_p2wpkh hp2]
  · intro rs hws hp2 hrs hrsp2
    refine ⟨by simp [List.length_drop, is_v0_p2wpkh_length hrsp2], ?_⟩
    simp only [Segwitv0.sighash, if_neg hif]
    rw [show psbt.inputs.getD i default = inp from rfl, hu, hws]
    simp [hp2, hrs, hrsp2, p2wpkh_script_code_of_p2wpkh hrsp2]
  · intro hws hp2 hrs
    simp only [Segwitv0.sighash, if_neg hif]
    rw [show psbt.inputs.getD i default = inp from rfl, hu, hws]
    simp only [hp2, Bool.false_eq_true, if_false, hrs]

/-- Witness for C1: a concrete PSBT with a canonical-P2WPKH witness
utxo and no witness script resolves to the synthesized script-code. -/
theorem segwitv0_script_code_resolution_witness :
    let spk : Script := 0x00 :: 0x14 :: List.replicate 20 7
    let u : TxOut := ⟨1000, spk⟩
    let psbt : Psbt := ⟨⟨[⟨⟨0, 0⟩⟩], []⟩, [{ witness_utxo := some u }]⟩
    Segwitv0.sighash psbt 0 =
      .ok (.segwitv0 psbt.unsigned_tx 0
        ([0x76, 0xa9, 0x14] ++ spk.drop 2 ++ [0x88, 0xac]) u.value .all) .all := by
  intro spk u psbt
  exact ((segwitv0_script_code_resolution psbt 0 u (by decide) (by decide)).2.1
    (by decide) (by decide)).2

/-! ### C2 -/

/-- **C2.** At a concrete PSBT whose single input has no `witness_utxo`
record, `Segwitv0::sighash` fails with `MissingNonWitnessUtxo` — not
with the `MissingWitnessUtxo` variant documented ("The `witness_utxo`
field of the transaction is required to sign this input") for exactly
this condition: the code contradicts its own error documentation. -/
theorem segwitv0_missing_witness_utxo_wrong_kind :
    Segwitv0.sighash ⟨⟨[⟨⟨0, 0⟩⟩], []⟩, [{}]⟩ 0 = .err .MissingNonWitnessUtxo ∧
    Segwitv0.sighash ⟨⟨[⟨⟨0, 0⟩⟩], []⟩, [{}]⟩ 0 ≠ .err .MissingWitnessUtxo := by
  constructor <;> decide

/-! ### C3 -/

/-- **C3.** For every PSBT and in-range input index (under the PSBT
invariant that the unsigned transaction has as many inputs as the PSBT
has input records), `Legacy::sighash` uses the input's redeem script
verbatim as script-code when present, regardless of the
`non_witness_utxo` record; otherwise it takes the script-pubkey of the
previous output located by the input's outpoint index inside the
recorded non-witness transaction, failing `MissingNonWitnessUtxo` when
that transaction is absent and `InvalidNonWitnessUtxo` when the
referenced output index does not exist in it. -/
theorem legacy_script_code_resolution
    (psbt : Psbt) (i : Nat)
    (hlen : i < psbt.inputs.length)
    (hinv : psbt.inputs.length = psbt.unsigned_tx.input.length) :
    let inp := psbt.inputs.getD i default
    let tx_input := psbt.unsigned_tx.input.getD i default
    let st := inp.sighash_type.getD SigHashType.all
    (∀ rs, inp.redeem_script = some rs →
      Legacy.sighash psbt i = .ok (.legacy psbt.unsigned_tx i rs st.as_u32) st)
    ∧ (inp.redeem_script = none → inp.non_witness_utxo = none →
      Legacy.sighash psbt i = .err .MissingNonWitnessUtxo)
    ∧ (∀ prev_tx, inp.redeem_script = none → inp.non_witness_utxo = some prev_tx →
      (prev_tx.output.get? tx_input.previous_output.vout = none →
        Legacy.sighash psbt i = .err .InvalidNonWitnessUtxo)
      ∧ (∀ prev_out, prev_tx.output.get? tx_input.previous_output.vout = some prev_out →
        Legacy.sighash psbt i =
          .ok (.legacy psbt.unsigned_tx i prev_out.script_pubkey st.as_u32) st)) := by
  intro inp tx_input st
  have hif : ¬ i ≥ psbt.inputs.length := by omega
  have htx : psbt.unsigned_tx.input.get? i = some tx_input :=
    get?_eq_some_getD (by omega)
  refine ⟨?_, ?_, ?_⟩
  · intro rs hrs
    simp only [Legacy.sighash, if_neg hif, htx]
    rw [show psbt.inputs.getD i default = inp from rfl, hrs]
  · intro hrs hnw
    simp only [Legacy.sighash, if_neg hif, htx]
    rw [show psbt.inputs.getD i default = inp from rfl, hrs, hnw]
  · intro prev_tx hrs hnw
    constructor
    · intro hout
      simp only [Legacy.sighash, if_neg hif, htx]
      rw [show psbt.inputs.getD i default = inp from rfl, hrs, hnw]
      simp only [hout]
    · intro prev_out hout
      simp only [Legacy.sighash, if_neg hif, htx]
      rw [show psbt.inputs.getD i default = inp from rfl, hrs, hnw]
      simp only [hout]

/-- Witness for C3: on a concrete PSBT, a present redeem script is used
verbatim, and without it (and without `non_witness_utxo`) the call
fails `MissingNonWitnessUtxo`. -/
theorem legacy_script_code_resolution_witness :
    let tx : Transaction := ⟨[⟨⟨0, 0⟩⟩], []⟩
    (Legacy.sighash ⟨tx, [{ redeem_script := some [0x51] }]⟩ 0 =
      .ok (.legacy tx 0 [0x51] 1) .all)
    ∧ Legacy.sighash ⟨tx, [{}]⟩ 0 = .err .MissingNonWitnessUtxo := by
  intro tx
  constructor
  · exact (legacy_script_code_resolution ⟨tx, [{ redeem_script := some [0x51] }]⟩ 0
      (by decide) (by decide)).1 [0x51] (by decide)
  · exact (legacy_script_code_resolution ⟨tx, [{}]⟩ 0
      (by decide) (by decide)).2.1 (by decide) (by decide)

/-! ### C4 -/

/-- Counterexample to C4 as stated: at a concrete PSBT, calling the
single-private-key signer with an absent input index panics (the
source unwraps the index) instead of returning
`InputIndexOutOfRange`. -/
theorem sign_absent_index_panics_cex :
    PrivateKey.sign ⟨1⟩ ⟨⟨[], []⟩, []⟩ none = .panic ∧
    PrivateKey.sign ⟨1⟩ ⟨⟨[], []⟩, []⟩ none ≠
      .err .InputIndexOutOfRange ⟨⟨[], []⟩, []⟩ := by
  constructor <;> decide

/-- **C4 (amended).** Both built-in signers return
`InputIndexOutOfRange` (with the transaction unmodified) when the
supplied index is ≥ the input count; an absent index makes them panic
(`input_index.unwrap()`), it is not reported as an error. -/
theorem sign_input_index_out_of_range
    (sk : PrivateKey) (xk : DescriptorXKey) (psbt : Psbt) (i : Nat)
    (h : i ≥ psbt.inputs.length) :
    sk.sign psbt (some i) = .err .InputIndexOutOfRange psbt
    ∧ xk.sign psbt (some i) = .err .InputIndexOutOfRange psbt
    ∧ sk.sign psbt none = .panic
    ∧ xk.sign psbt none = .panic := by
  refine ⟨?_, ?_, rfl, rfl⟩
  · simp only [PrivateKey.sign, if_pos h]
  · simp only [DescriptorXKey.sign, if_pos h]

/-- Witness for C4 (amended): instantiated at an empty PSBT and
index 0. -/
theorem sign_input_index_out_of_range_witness :
    PrivateKey.sign ⟨1⟩ ⟨⟨[], []⟩, []⟩ (some 0) =
      .err .InputIndexOutOfRange ⟨⟨[], []⟩, []⟩ :=
  (sign_input_index_out_of_range ⟨1⟩ ⟨fun _ => ⟨⟨1⟩⟩, fun _ => false⟩
    ⟨⟨[], []⟩, []⟩ 0 (by decide)).1

/-! ### Helper lemmas for the single-key signer -/

theorem containsKey_iff_mem {pk : PublicKey} {l : List (PublicKey × FinalSig)} :
    containsKey pk l = true ↔ pk ∈ l.map Prod.fst := by
  simp only [containsKey, List.any_eq_true, beq_iff_eq, List.mem_map]

theorem insertSig_of_not_contains {pk : PublicKey} (v : FinalSig) :
    ∀ {l : List (PublicKey × FinalSig)}, containsKey pk l = false →
      insertSig pk v l = l ++ [(pk, v)]
  | [], _ => rfl
  | (k, x) :: rest, h => by
    have h1 : (k == pk) = false ∧ containsKey pk rest = false := by
      simpa [containsKey, Bool.or_eq_false_iff] using h
    simp only [insertSig, h1.1, Bool.false_eq_true, if_false, List.cons_append]
    exact congrArg _ (insertSig_of_not_contains v h1.2)

theorem containsKey_insertSig (pk : PublicKey) (v : FinalSig)
    (l : List (PublicKey × FinalSig)) : containsKey pk (insertSig pk v l) = true := by
  induction l with
  | nil => simp [insertSig, containsKey]
  | cons kv rest ih =>
    by_cases h : kv.1 == pk
    · simp [insertSig, h, containsKey]
    · simp only [insertSig]
      rw [if_neg (by simp_all)]
      simp only [containsKey, List.any_cons, h, Bool.false_or]
      exact ih

/-- Exhaustive description of a successful `PrivateKey::sign` call:
the index was in range, and the result is either the unchanged PSBT
(a signature for this key was already present) or the PSBT with
exactly one binding inserted into the targeted input's
`partial_sigs`. -/
theorem privkey_sign_ok_cases (sk : PrivateKey) (psbt : Psbt) (i : Nat)
    (psbt' : Psbt) (h : sk.sign psbt (some i) = .ok psbt') :
    i < psbt.inputs.length ∧
    ((containsKey sk.public_key (psbt.inputs.getD i default).partial_sigs = true ∧
        psbt' = psbt)
     ∨ (containsKey sk.public_key (psbt.inputs.getD i default).partial_sigs = false ∧
        ∃ fs, psbt'.unsigned_tx = psbt.unsigned_tx ∧
          psbt'.inputs = psbt.inputs.set i
            { psbt.inputs.getD i default with
              partial_sigs :=
                insertSig sk.public_key fs (psbt.inputs.getD i default).partial_sigs })) := by
  simp only [PrivateKey.sign] at h
  by_cases hge : i ≥ psbt.inputs.length
  · rw [if_pos hge] at h; exact absurd h (by simp)
  · rw [if_neg hge] at h
    refine ⟨by omega, ?_⟩
    by_cases hck : containsKey sk.public_key (psbt.inputs.getD i default).partial_sigs
    · rw [if_pos hck] at h
      cases h
      exact Or.inl ⟨hck, rfl⟩
    · rw [if_neg hck] at h
      refine Or.inr ⟨by simpa using hck, ?_⟩
      cases hhs : (match (psbt.inputs.getD i default).witness_utxo with
        | some _ => Segwitv0.sighash psbt i
        | none => Legacy.sighash psbt i) with
      | panic => rw [hhs] at h; exact absurd h (by simp)
      | err e => rw [hhs] at h; exact absurd h (by simp)
      | ok hash ty =>
        rw [hhs] at h
        cases h
        exact ⟨⟨⟨hash, sk.key⟩, ty.as_u32 % 256⟩, rfl, rfl⟩

theorem privkey_sign_of_contains (sk : PrivateKey) (psbt : Psbt) (i : Nat)
    (hlt : i < psbt.inputs.length)
    (hck : containsKey sk.public_key (psbt.inputs.getD i default).partial_sigs = true) :
    sk.sign psbt (some i) = .ok psbt := by
  have hge : ¬ i ≥ psbt.inputs.length := by omega
  simp only [PrivateKey.sign, if_neg hge, if_pos hck]

/-! ### C5 -/

/-- **C5.** The single-private-key signer is idempotent: when a
partial signature already exists under this signer's public key on the
targeted in-range input, `sign` returns success with the PSBT
unchanged; and after any successful `sign`, running it again yields
the same state, which (given the `BTreeMap` invariant that the input's
signature keys are duplicate-free) holds exactly one entry under this
signer's public key. -/
theorem privkey_sign_idempotent (sk : PrivateKey) (psbt : Psbt) (i : Nat) :
    (i < psbt.inputs.length →
      containsKey sk.public_key (psbt.inputs.getD i default).partial_sigs = true →
      sk.sign psbt (some i) = .ok psbt)
    ∧ ∀ psbt', sk.sign psbt (some i) = .ok psbt' →
        sk.sign psbt' (some i) = .ok psbt'
        ∧ (((psbt.inputs.getD i default).partial_sigs.map Prod.fst).Nodup →
            ((psbt'.inputs.getD i default).partial_sigs.map Prod.fst).Nodup
            ∧ List.count sk.public_key
                ((psbt'.inputs.getD i default).partial_sigs.map Prod.fst) = 1) := by
  refine ⟨fun hlt hck => privkey_sign_of_contains sk psbt i hlt hck, ?_⟩
  intro psbt' h
  obtain ⟨hlt, hcase⟩ := privkey_sign_ok_cases sk psbt i psbt' h
  rcases hcase with ⟨hck, heq⟩ | ⟨hck, fs, htx, hin⟩
  · subst heq
    refine ⟨privkey_sign_of_contains sk psbt' i hlt hck, fun hnd => ⟨hnd, ?_⟩⟩
    exact List.count_eq_one_of_mem hnd (containsKey_iff_mem.mp hck)
  · have hins := insertSig_of_not_contains fs hck
    have hgd : psbt'.inputs.getD i default =
        { psbt.inputs.getD i default with
          partial_sigs :=
            insertSig sk.public_key fs (psbt.inputs.getD i default).partial_sigs } := by
      rw [hin, List.getD_eq_getElem?_getD, List.getElem?_set_eq_of_lt _ hlt]
      rfl
    have hnotmem : sk.public_key ∉ (psbt.inputs.getD i default).partial_sigs.map Prod.fst := by
      intro hm
      have hcontra := containsKey_iff_mem.mpr hm
      rw [hck] at hcontra
      exact Bool.false_ne_true hcontra
    refine ⟨?_, fun hnd => ?_⟩
    · apply privkey_sign_of_contains sk psbt' i (by rw [hin]; simpa using hlt)
      rw [hgd]
      exact containsKey_insertSig sk.public_key fs (psbt.inputs.getD i default).partial_sigs
    · rw [hgd]
      show ((insertSig sk.public_key fs (psbt.inputs.getD i default).partial_sigs).map
          Prod.fst).Nodup ∧ _
      rw [hins]
      simp only [List.map_append, List.map_cons, List.map_nil]
      constructor
      · rw [List.nodup_append]
        refine ⟨hnd, List.nodup_singleton _, ?_⟩
        intro a ha hb
        rw [List.mem_singleton] at hb
        subst hb
        exact hnotmem ha
      · rw [List.count_append, List.count_eq_zero.mpr hnotmem, Nat.zero_add]
        simp

/-- Witness for C5: a concrete successful signing call, rerun on its
own output, returns that output unchanged. -/
theorem privkey_sign_idempotent_witness :
    PrivateKey.sign ⟨9⟩
      ⟨⟨[⟨⟨0, 0⟩⟩], []⟩,
        [{ redeem_script := some [0x51],
           partial_sigs := [(⟨9⟩, ⟨⟨.legacy ⟨[⟨⟨0, 0⟩⟩], []⟩ 0 [0x51] 1, 9⟩, 1⟩)] }]⟩
      (some 0) =
    .ok ⟨⟨[⟨⟨0, 0⟩⟩], []⟩,
        [{ redeem_script := some [0x51],
           partial_sigs := [(⟨9⟩, ⟨⟨.legacy ⟨[⟨⟨0, 0⟩⟩], []⟩ 0 [0x51] 1, 9⟩, 1⟩)] }]⟩ :=
  ((privkey_sign_idempotent ⟨9⟩
      ⟨⟨[⟨⟨0, 0⟩⟩], []⟩, [{ redeem_script := some [0x51] }]⟩ 0).2
    _ (by decide)).1

/-! ### C6 -/

/-- **C6.** For an in-range input index, the extended-private-key
signer returns success with the PSBT unchanged when no
`hd_keypaths` record of the input matches its derivation root, and
fails `InvalidKey` with the PSBT unchanged when the first matching
record pairs a public key different from the one derived along the
recorded path. -/
theorem xkey_sign_no_match_or_invalid_key
    (xk : DescriptorXKey) (psbt : Psbt) (i : Nat) (hlt : i < psbt.inputs.length) :
    ((psbt.inputs.getD i default).hd_keypaths.find?
        (fun kv => xk.matchesRoot (kv.2.1, kv.2.2)) = none →
      xk.sign psbt (some i) = .ok psbt)
    ∧ (∀ pk fp path,
      (psbt.inputs.getD i default).hd_keypaths.find?
          (fun kv => xk.matchesRoot (kv.2.1, kv.2.2)) = some (pk, (fp, path)) →
      (xk.derive_priv path).private_key.public_key ≠ pk →
      xk.sign psbt (some i) = .err .InvalidKey psbt) := by
  have hge : ¬ i ≥ psbt.inputs.length := by omega
  constructor
  · intro hfind
    simp only [DescriptorXKey.sign, if_neg hge, hfind]
  · intro pk fp path hfind hne
    simp only [DescriptorXKey.sign, if_neg hge, hfind, if_neg hne]

/-- Witness for C6: one concrete PSBT where no record matches (success,
unchanged) and one where the matching record's public key differs from
the derived one (`InvalidKey`, unchanged). -/
theorem xkey_sign_no_match_or_invalid_key_witness :
    DescriptorXKey.sign ⟨fun _ => ⟨⟨5⟩⟩, fun _ => false⟩
      ⟨⟨[⟨⟨0, 0⟩⟩], []⟩, [{ hd_keypaths := [(⟨7⟩, (3, [0]))] }]⟩ (some 0) =
      .ok ⟨⟨[⟨⟨0, 0⟩⟩], []⟩, [{ hd_keypaths := [(⟨7⟩, (3, [0]))] }]⟩
    ∧ DescriptorXKey.sign ⟨fun _ => ⟨⟨5⟩⟩, fun _ => true⟩
      ⟨⟨[⟨⟨0, 0⟩⟩], []⟩, [{ hd_keypaths := [(⟨7⟩, (3, [0]))] }]⟩ (some 0) =
      .err .InvalidKey ⟨⟨[⟨⟨0, 0⟩⟩], []⟩, [{ hd_keypaths := [(⟨7⟩, (3, [0]))] }]⟩ :=
  ⟨(xkey_sign_no_match_or_invalid_key ⟨fun _ => ⟨⟨5⟩⟩, fun _ => false⟩
      ⟨⟨[⟨⟨0, 0⟩⟩], []⟩, [{ hd_keypaths := [(⟨7⟩, (3, [0]))] }]⟩ 0 (by decide)).1 rfl,
   (xkey_sign_no_match_or_invalid_key ⟨fun _ => ⟨⟨5⟩⟩, fun _ => true⟩
      ⟨⟨[⟨⟨0, 0⟩⟩], []⟩, [{ hd_keypaths := [(⟨7⟩, (3, [0]))] }]⟩ 0 (by decide)).2
     ⟨7⟩ 3 [0] rfl (by decide)⟩

/-! ### C10 -/

/-- **C10.** A successful single-private-key `sign` call modifies at
most the `partial_sigs` map of the targeted input: the unsigned
transaction, every other input record, and every other field of the
targeted input are unchanged, and the targeted input's `partial_sigs`
is either unchanged or has one binding inserted under the signer's
public key. -/
theorem privkey_sign_frame (sk : PrivateKey) (psbt : Psbt) (i : Nat) (psbt' : Psbt)
    (h : sk.sign psbt (some i) = .ok psbt') :
    psbt'.unsigned_tx = psbt.unsigned_tx
    ∧ psbt'.inputs.length = psbt.inputs.length
    ∧ (∀ j, j ≠ i → psbt'.inputs[j]? = psbt.inputs[j]?)
    ∧ ((psbt'.inputs.getD i default).non_witness_utxo =
        (psbt.inputs.getD i default).non_witness_utxo
      ∧ (psbt'.inputs.getD i default).witness_utxo =
        (psbt.inputs.getD i default).witness_utxo
      ∧ (psbt'.inputs.getD i default).sighash_type =
        (psbt.inputs.getD i default).sighash_type
      ∧ (psbt'.inputs.getD i default).redeem_script =
        (psbt.inputs.getD i default).redeem_script
      ∧ (psbt'.inputs.getD i default).witness_script =
        (psbt.inputs.getD i default).witness_script
      ∧ (psbt'.inputs.getD i default).hd_keypaths =
        (psbt.inputs.getD i default).hd_keypaths)
    ∧ ((psbt'.inputs.getD i default).partial_sigs =
        (psbt.inputs.getD i default).partial_sigs
      ∨ ∃ fs, (psbt'.inputs.getD i default).partial_sigs =
          insertSig sk.public_key fs (psbt.inputs.getD i default).partial_sigs) := by
  obtain ⟨hlt, hcase⟩ := privkey_sign_ok_cases sk psbt i psbt' h
  rcases hcase with ⟨hck, heq⟩ | ⟨hck, fs, htx, hin⟩
  · subst heq
    exact ⟨rfl, rfl, fun j _ => rfl, ⟨rfl, rfl, rfl, rfl, rfl, rfl⟩, Or.inl rfl⟩
  · have hgd : psbt'.inputs.getD i default =
        { psbt.inputs.getD i default with
          partial_sigs :=
            insertSig sk.public_key fs (psbt.inputs.getD i default).partial_sigs } := by
      rw [hin, List.getD_eq_getElem?_getD, List.getElem?_set_eq_of_lt _ hlt]
      rfl
    refine ⟨htx, by rw [hin]; simp, fun j hj => ?_, ?_, Or.inr ⟨fs, by rw [hgd]⟩⟩
    · rw [hin, List.getElem?_set_ne (Ne.symm hj)]
    · rw [hgd]
      exact ⟨rfl, rfl, rfl, rfl, rfl, rfl⟩

/-- Witness for C10: the frame condition instantiated at a concrete
successful signing call. -/
theorem privkey_sign_frame_witness :
    ((⟨⟨[⟨⟨0, 0⟩⟩], []⟩,
        [{ redeem_script := some [0x51],
           partial_sigs := [(⟨9⟩, ⟨⟨.legacy ⟨[⟨⟨0, 0⟩⟩], []⟩ 0 [0x51] 1, 9⟩, 1⟩)] }]⟩ :
      Psbt).unsigned_tx =
      (⟨⟨[⟨⟨0, 0⟩⟩], []⟩, [{ redeem_script := some [0x51] }]⟩ : Psbt).unsigned_tx) :=
  (privkey_sign_frame ⟨9⟩ ⟨⟨[⟨⟨0, 0⟩⟩], []⟩, [{ redeem_script := some [0x51] }]⟩ 0
    ⟨⟨[⟨⟨0, 0⟩⟩], []⟩,
      [{ redeem_script := some [0x51],
         partial_sigs := [(⟨9⟩, ⟨⟨.legacy ⟨[⟨⟨0, 0⟩⟩], []⟩ 0 [0x51] 1, 9⟩, 1⟩)] }]⟩
    (by decide)).1

/-! ### Comparator lemmas for the registry -/

theorem then_eq_lt {o p : Ordering} : o.then p = .lt ↔ o = .lt ∨ (o = .eq ∧ p = .lt) := by
  cases o <;> simp [Ordering.then]

theorem then_eq_eq {o p : Ordering} : o.then p = .eq ↔ o = .eq ∧ p = .eq := by
  cases o <;> simp [Ordering.then]

theorem then_eq_gt {o p : Ordering} : o.then p = .gt ↔ o = .gt ∨ (o = .eq ∧ p = .gt) := by
  cases o <;> simp [Ordering.then]

theorem SignerId.cmp_refl (a : SignerId) : a.cmp a = .eq := by
  cases a <;> simp [SignerId.cmp, Nat.compare_eq_eq]

theorem SignerId.cmp_eq_iff {a b : SignerId} : a.cmp b = .eq ↔ a = b := by
  cases a <;> cases b <;> simp [SignerId.cmp, Nat.compare_eq_eq]

theorem SignerId.cmp_gt_iff {a b : SignerId} : a.cmp b = .gt ↔ b.cmp a = .lt := by
  cases a <;> cases b <;>
    simp [SignerId.cmp, Nat.compare_eq_gt, Nat.compare_eq_lt]

theorem SignerId.cmp_lt_trans {a b c : SignerId}
    (h1 : a.cmp b = .lt) (h2 : b.cmp c = .lt) : a.cmp c = .lt := by
  cases a <;> cases b <;> cases c <;>
    simp_all [SignerId.cmp, Nat.compare_eq_lt] <;> omega

theorem key_cmp_eq_iff {a b : SignersContainerKey} :
    SignersContainerKey.cmp a b = .eq ↔ a = b := by
  obtain ⟨ida, orda⟩ := a
  obtain ⟨idb, ordb⟩ := b
  rw [SignersContainerKey.cmp, then_eq_eq, Nat.compare_eq_eq, SignerId.cmp_eq_iff,
    SignersContainerKey.mk.injEq]
  exact and_comm

theorem key_cmp_gt_iff {a b : SignersContainerKey} :
    SignersContainerKey.cmp a b = .gt ↔ SignersContainerKey.cmp b a = .lt := by
  obtain ⟨ida, orda⟩ := a
  obtain ⟨idb, ordb⟩ := b
  rw [SignersContainerKey.cmp, SignersContainerKey.cmp, then_eq_gt, then_eq_lt,
    Nat.compare_eq_gt, Nat.compare_eq_lt, Nat.compare_eq_eq, Nat.compare_eq_eq,
    SignerId.cmp_gt_iff]
  constructor
  · rintro (h | ⟨he, h⟩)
    · exact Or.inl h
    · exact Or.inr ⟨he.symm, h⟩
  · rintro (h | ⟨he, h⟩)
    · exact Or.inl h
    · exact Or.inr ⟨he.symm, h⟩

theorem key_cmp_lt_trans {a b c : SignersContainerKey}
    (h1 : SignersContainerKey.cmp a b = .lt) (h2 : SignersContainerKey.cmp b c = .lt) :
    SignersContainerKey.cmp a c = .lt := by
  rw [SignersContainerKey.cmp, then_eq_lt, Nat.compare_eq_lt, Nat.compare_eq_eq] at h1 h2 ⊢
  rcases h1 with h1 | ⟨h1e, h1i⟩ <;> rcases h2 with h2 | ⟨h2e, h2i⟩
  · exact Or.inl (by omega)
  · exact Or.inl (by omega)
  · exact Or.inl (by omega)
  · exact Or.inr ⟨by omega, SignerId.cmp_lt_trans h1i h2i⟩

theorem key_cmp_lt_ord_le {a b : SignersContainerKey}
    (h : SignersContainerKey.cmp a b = .lt) :
    a.ordering ≤ b.ordering ∧ (a.ordering = b.ordering → a.id.cmp b.id = .lt) := by
  rw [SignersContainerKey.cmp, then_eq_lt, Nat.compare_eq_lt, Nat.compare_eq_eq] at h
  rcases h with h | ⟨he, hi⟩
  · exact ⟨by omega, fun hc => by omega⟩
  · exact ⟨by omega, fun _ => hi⟩

/-! ### Registry map lemmas -/

theorem btLookup_eq_none_of_lt {k : SignersContainerKey} :
    ∀ {m : SignersContainer}, (∀ kv ∈ m, SignersContainerKey.cmp k kv.1 = .lt) →
      btLookup k m = none
  | [], _ => rfl
  | (k', v') :: rest, h => by
    have hh := h (k', v') (List.mem_cons_self _ _)
    rw [btLookup, if_neg (by rw [hh]; intro hc; cases hc)]
    exact btLookup_eq_none_of_lt fun kv hkv => h kv (List.mem_cons_of_mem _ hkv)

theorem btInsert_spec (k : SignersContainerKey) (v : SignerInstance) :
    ∀ m : SignersContainer, SortedMap m →
      (btInsert k v m).2 = btLookup k m
      ∧ ∀ k', btLookup k' (btInsert k v m).1 =
          if k' = k then some v else btLookup k' m
  | [], _ => by
    refine ⟨rfl, fun k' => ?_⟩
    simp [btInsert, btLookup, key_cmp_eq_iff]
  | (k₀, v₀) :: rest, hs => by
    obtain ⟨hhead, hrest⟩ := List.pairwise_cons.mp hs
    cases hc : SignersContainerKey.cmp k k₀ with
    | lt =>
      refine ⟨?_, fun k' => ?_⟩
      · rw [btInsert, hc]
        refine (btLookup_eq_none_of_lt ?_).symm
        intro kv hkv
        rcases List.mem_cons.mp hkv with rfl | hm
        · exact hc
        · exact key_cmp_lt_trans hc (hhead kv hm)
      · rw [btInsert, hc]
        show (if SignersContainerKey.cmp k' k = .eq then some v
          else btLookup k' ((k₀, v₀) :: rest)) = _
        simp [key_cmp_eq_iff]
    | eq =>
      have hk : k = k₀ := key_cmp_eq_iff.mp hc
      subst hk
      refine ⟨?_, fun k' => ?_⟩
      · rw [btInsert, hc, btLookup, if_pos hc]
      · rw [btInsert, hc]
        show (if SignersContainerKey.cmp k' k = .eq then some v else btLookup k' rest) = _
        rw [btLookup]
        by_cases hk' : k' = k
        · subst hk'
          rw [if_pos (key_cmp_eq_iff.mpr rfl), if_pos rfl]
        · rw [if_neg (fun hc' => hk' (key_cmp_eq_iff.mp hc')), if_neg hk',
            if_neg (fun hc' => hk' (key_cmp_eq_iff.mp hc'))]
    | gt =>
      obtain ⟨ih1, ih2⟩ := btInsert_spec k v rest hrest
      refine ⟨?_, fun k' => ?_⟩
      · rw [btInsert, hc]
        show (btInsert k v rest).2 = _
        rw [ih1, btLookup, if_neg (by rw [hc]; intro h; cases h)]
      · rw [btInsert, hc]
        show (if SignersContainerKey.cmp k' k₀ = .eq then some v₀
          else btLookup k' (btInsert k v rest).1) = _
        by_cases hk₀ : SignersContainerKey.cmp k' k₀ = .eq
        · have hk'eq : k' = k₀ := key_cmp_eq_iff.mp hk₀
          subst hk'eq
          have hne : ¬ k' = k := by
            intro he
            subst he
            rw [key_cmp_eq_iff.mpr rfl] at hc
            cases hc
          rw [if_pos hk₀, if_neg hne, btLookup, if_pos hk₀]
        · rw [if_neg hk₀, ih2 k', btLookup, if_neg hk₀]

/-! ### C9 -/

/-- **C9.** On a well-formed (sorted) registry, `add_external` at an
already-occupied composite (identity, ordering) key replaces the
occupant and returns it, while adding at a fresh composite key returns
`None` and leaves every other key's occupant unchanged — in
particular, entries sharing an identity at different orderings
coexist. -/
theorem add_external_spec (m : SignersContainer) (hs : SortedMap m)
    (id : SignerId) (ordering : Nat) (signer : SignerInstance) :
    (m.add_external id ordering signer).2 = btLookup ⟨id, ordering⟩ m
    ∧ ∀ k', btLookup k' (m.add_external id ordering signer).1 =
        if k' = ⟨id, ordering⟩ then some signer else btLookup k' m :=
  btInsert_spec ⟨id, ordering⟩ signer m hs

/-- Witness for C9: registering a second signer with the same identity
at a different ordering returns `None` and keeps the first one. -/
theorem add_external_spec_witness :
    (SignersContainer.add_external [(⟨.Fingerprint 5, 1⟩, 10)] (.Fingerprint 5) 2 11).2 =
      btLookup ⟨.Fingerprint 5, 2⟩ [(⟨.Fingerprint 5, 1⟩, 10)]
    ∧ btLookup ⟨.Fingerprint 5, 1⟩
        (SignersContainer.add_external [(⟨.Fingerprint 5, 1⟩, 10)] (.Fingerprint 5) 2 11).1 =
      some 10 := by
  obtain ⟨h1, h2⟩ := add_external_spec [(⟨.Fingerprint 5, 1⟩, 10)]
    (by simp [SortedMap]) (.Fingerprint 5) 2 11
  exact ⟨h1, by rw [h2 ⟨.Fingerprint 5, 1⟩]; decide⟩

/-! ### Sortedness preservation and C8 -/

theorem mem_btInsert {x : SignersContainerKey × SignerInstance}
    {k : SignersContainerKey} {v : SignerInstance} :
    ∀ {m : SignersContainer}, x ∈ (btInsert k v m).1 → x = (k, v) ∨ x ∈ m
  | [], h => by
    rw [btInsert] at h
    rcases List.mem_cons.mp h with rfl | hm
    · exact Or.inl rfl
    · cases hm
  | (k₀, v₀) :: rest, h => by
    rw [btInsert] at h
    cases hc : SignersContainerKey.cmp k k₀ <;> rw [hc] at h
    · rcases List.mem_cons.mp h with rfl | hm
      · exact Or.inl rfl
      · exact Or.inr hm
    · rcases List.mem_cons.mp h with rfl | hm
      · exact Or.inl rfl
      · exact Or.inr (List.mem_cons_of_mem _ hm)
    · rcases List.mem_cons.mp h with rfl | hm
      · exact Or.inr (List.mem_cons_self _ _)
      · rcases mem_btInsert hm with h' | h'
        · exact Or.inl h'
        · exact Or.inr (List.mem_cons_of_mem _ h')

theorem sortedMap_btInsert (k : SignersContainerKey) (v : SignerInstance) :
    ∀ {m : SignersContainer}, SortedMap m → SortedMap (btInsert k v m).1
  | [], _ => by
    rw [btInsert]
    exact List.pairwise_singleton _ _
  | (k₀, v₀) :: rest, hs => by
    obtain ⟨hhead, hrest⟩ := List.pairwise_cons.mp hs
    rw [btInsert]
    cases hc : SignersContainerKey.cmp k k₀
    · refine List.Pairwise.cons ?_ hs
      intro x hx
      rcases List.mem_cons.mp hx with rfl | hm
      · exact hc
      · exact key_cmp_lt_trans hc (hhead x hm)
    · have hk : k = k₀ := key_cmp_eq_iff.mp hc
      subst hk
      exact List.Pairwise.cons hhead hrest
    · refine List.Pairwise.cons ?_ (sortedMap_btInsert k v hrest)
      intro x hx
      rcases mem_btInsert hx with rfl | hm
      · exact key_cmp_gt_iff.mp hc
      · exact hhead x hm

theorem btRemove_sublist (k : SignersContainerKey) :
    ∀ m : SignersContainer, (btRemove k m).1.Sublist m
  | [] => List.Sublist.refl _
  | (k₀, v₀) :: rest => by
    rw [btRemove]
    cases hc : SignersContainerKey.cmp k k₀
    · exact List.Sublist.refl _
    · exact List.Sublist.cons _ (List.Sublist.refl rest)
    · exact List.Sublist.cons₂ _ (btRemove_sublist k rest)

theorem reachable_sortedMap {m : SignersContainer} (h : Reachable m) : SortedMap m := by
  induction h with
  | new => exact List.Pairwise.nil
  | add id ordering signer h hord ih => exact sortedMap_btInsert _ _ ih
  | remove id ordering h ih => exact ih.sublist (btRemove_sublist _ _)

/-- **C8.** In every registry state reachable by `add_external` /
`remove` operations from the empty container, the entry sequence that
`signers()` enumerates (its values, in this order) is non-decreasing
in ordering, and entries of equal ordering are non-decreasing in
identity. -/
theorem signers_enumeration_sorted (m : SignersContainer) (h : Reachable m) :
    List.Pairwise (fun a b => a.1.ordering ≤ b.1.ordering ∧
      (a.1.ordering = b.1.ordering → a.1.id.cmp b.1.id ≠ .gt)) m := by
  refine (reachable_sortedMap h).imp ?_
  intro a b hab
  obtain ⟨hle, hid⟩ := key_cmp_lt_ord_le hab
  refine ⟨hle, fun he => ?_⟩
  rw [hid he]
  intro hx
  cases hx

/-- Witness for C8: a two-step reachable registry, added in
priority-decreasing order, enumerates sorted. -/
theorem signers_enumeration_sorted_witness :
    List.Pairwise (fun a b => a.1.ordering ≤ b.1.ordering ∧
      (a.1.ordering = b.1.ordering → a.1.id.cmp b.1.id ≠ .gt))
      ((SignersContainer.add_external
        (SignersContainer.add_external [] (.Fingerprint 1) 2 10).1
        (.Fingerprint 2) 1 20).1) :=
  signers_enumeration_sorted _
    (Reachable.add (.Fingerprint 2) 1 20
      (Reachable.add (.Fingerprint 1) 2 10 Reachable.new (by decide))
      (by decide))

/-! ### C7 -/

theorem find_nil (id : SignerId) : SignersContainer.find [] id = none := rfl

theorem find_cons (kv : SignersContainerKey × SignerInstance) (rest : SignersContainer)
    (id : SignerId) :
    SignersContainer.find (kv :: rest) id =
      if ((decide (SignersContainerKey.cmp ⟨id, 0⟩ kv.1 ≠ .gt)
            && decide (SignersContainerKey.cmp kv.1 ⟨id, usizeMax⟩ ≠ .gt))
          && decide (kv.1.id = id)) = true
        then some kv.2
        else SignersContainer.find rest id := by
  simp only [SignersContainer.find]
  rw [List.filter_cons]
  by_cases hp : (decide (SignersContainerKey.cmp ⟨id, 0⟩ kv.1 ≠ .gt)
      && decide (SignersContainerKey.cmp kv.1 ⟨id, usizeMax⟩ ≠ .gt)) = true
  · rw [if_pos hp, List.filter_cons]
    by_cases hq : (decide (kv.1.id = id)) = true
    · rw [if_pos hq, if_pos (by rw [Bool.and_eq_true]; exact ⟨hp, hq⟩)]
      rfl
    · rw [if_neg hq, if_neg (by rw [Bool.and_eq_true]; rintro ⟨-, hc⟩; exact hq hc)]
  · rw [if_neg hp, if_neg (by rw [Bool.and_eq_true]; rintro ⟨hc, -⟩; exact hp hc)]

/-- Under the `usize` bound on the stored ordering, the range-plus-id
filter of `find` keeps exactly the entries carrying the searched
identity. -/
theorem find_pred_true_iff {id : SignerId} {k : SignersContainerKey}
    (hb : k.ordering ≤ usizeMax) :
    ((decide (SignersContainerKey.cmp ⟨id, 0⟩ k ≠ .gt)
        && decide (SignersContainerKey.cmp k ⟨id, usizeMax⟩ ≠ .gt))
      && decide (k.id = id)) = true ↔ k.id = id := by
  constructor
  · intro h
    simp only [Bool.and_eq_true, decide_eq_true_eq] at h
    exact h.2
  · intro h
    have h0 : SignersContainerKey.cmp ⟨id, 0⟩ k ≠ .gt := by
      intro hgt
      rw [show SignersContainerKey.cmp ⟨id, 0⟩ k
          = (compare 0 k.ordering).then (SignerId.cmp id k.id) from rfl,
        then_eq_gt] at hgt
      rcases hgt with hgt | ⟨_, hgt⟩
      · rw [Nat.compare_eq_gt] at hgt
        omega
      · rw [h, SignerId.cmp_refl] at hgt
        cases hgt
    have h1 : SignersContainerKey.cmp k ⟨id, usizeMax⟩ ≠ .gt := by
      intro hgt
      rw [show SignersContainerKey.cmp k ⟨id, usizeMax⟩
          = (compare k.ordering usizeMax).then (SignerId.cmp k.id id) from rfl,
        then_eq_gt] at hgt
      rcases hgt with hgt | ⟨_, hgt⟩
      · rw [Nat.compare_eq_gt] at hgt
        omega
      · rw [h, SignerId.cmp_refl] at hgt
        cases hgt
    simp only [Bool.and_eq_true, decide_eq_true_eq]
    exact ⟨⟨h0, h1⟩, h⟩

/-- **C7.** On a well-formed registry (sorted entries, `usize`-bounded
orderings), `find id` returns the instance stored under the minimum
ordering among all entries whose identity is `id`, and returns `None`
exactly when no entry carries that identity. -/
theorem find_lowest_ordering (id : SignerId) :
    ∀ m : SignersContainer, SortedMap m → BoundedOrd m →
      (∀ v, SignersContainer.find m id = some v →
        ∃ k, (k, v) ∈ m ∧ k.id = id ∧
          ∀ kv ∈ m, kv.1.id = id → k.ordering ≤ kv.1.ordering)
      ∧ (SignersContainer.find m id = none ↔ ∀ kv ∈ m, kv.1.id ≠ id)
  | [], _, _ => by
    refine ⟨fun v hv => ?_, by simp [find_nil]⟩
    rw [find_nil] at hv
    cases hv
  | kv :: rest, hs, hb => by
    obtain ⟨hhead, hrest⟩ := List.pairwise_cons.mp hs
    have hbh : kv.1.ordering ≤ usizeMax := hb kv (List.mem_cons_self _ _)
    have hbr : BoundedOrd rest := fun x hx => hb x (List.mem_cons_of_mem _ hx)
    obtain ⟨ih1, ih2⟩ := find_lowest_ordering id rest hrest hbr
    rw [find_cons]
    by_cases hid : kv.1.id = id
    · rw [if_pos ((find_pred_true_iff hbh).mpr hid)]
      constructor
      · intro v hv
        obtain rfl : kv.2 = v := by cases hv; rfl
        refine ⟨kv.1, List.mem_cons_self _ _, hid, ?_⟩
        intro kv' hkv' _
        rcases List.mem_cons.mp hkv' with rfl | hm
        · exact Nat.le_refl _
        · exact (key_cmp_lt_ord_le (hhead kv' hm)).1
      · constructor
        · intro hv
          cases hv
        · intro hall
          exact absurd hid (hall kv (List.mem_cons_self _ _))
    · rw [if_neg (fun hp => hid ((find_pred_true_iff hbh).mp hp))]
      constructor
      · intro v hv
        obtain ⟨k, hkmem, hkid, hmin⟩ := ih1 v hv
        refine ⟨k, List.mem_cons_of_mem _ hkmem, hkid, ?_⟩
        intro kv' hkv' hkvid
        rcases List.mem_cons.mp hkv' with rfl | hm
        · exact absurd hkvid hid
        · exact hmin kv' hm hkvid
      · rw [ih2]
        constructor
        · intro hall kv' hkv'
          rcases List.mem_cons.mp hkv' with rfl | hm
          · exact hid
          · exact hall kv' hm
        · intro hall x hx
          exact hall x (List.mem_cons_of_mem _ hx)

/-- Witness for C7: the spec's worked example — one identity
registered at orderings 1, 2, 3; `find` returns the ordering-1
instance, which has minimal ordering among them. -/
theorem find_lowest_ordering_witness :
    ∃ k, (k, 10) ∈ ([(⟨.Fingerprint 5, 1⟩, 10), (⟨.Fingerprint 5, 2⟩, 11),
        (⟨.Fingerprint 5, 3⟩, 12)] : SignersContainer)
      ∧ k.id = .Fingerprint 5
      ∧ ∀ kv ∈ ([(⟨.Fingerprint 5, 1⟩, 10), (⟨.Fingerprint 5, 2⟩, 11),
          (⟨.Fingerprint 5, 3⟩, 12)] : SignersContainer),
          kv.1.id = .Fingerprint 5 → k.ordering ≤ kv.1.ordering :=
  (find_lowest_ordering (.Fingerprint 5)
    [(⟨.Fingerprint 5, 1⟩, 10), (⟨.Fingerprint 5, 2⟩, 11), (⟨.Fingerprint 5, 3⟩, 12)]
    (by unfold SortedMap; decide) (by unfold BoundedOrd; decide)).1 10 (by decide)

end Signer
